import Mathlib

/-
Verification of the Real-Time-Gaze-Adaptive-LOD-Renderer repository.

Shallow embedding of the parts of the code the claims talk about:
- src/foveated-renderer/src/eye-tracking/RidgeRegression.js
- src/foveated-renderer/src/eye-tracking/GazeEstimator.js
- src/foveated-renderer/src/calibration/CalibrationUI.js
- the foveated-LOD computation of the fragment shaders in
  src/foveated-renderer/src/renderer/RaymarchingRenderer.js and the scene files.

Numbers are modelled as rationals; Math.sqrt is passed around explicitly as a
function parameter (rsqrt), since every property proved here holds for an
arbitrary square-root routine.  For concrete witnesses we use ratSqrt, an exact
square root on perfect rational squares.
-/

namespace Foveated

abbrev Vec := List ℚ
abbrev Mat := List (List ℚ)

/-- Exact rational square root used to instantiate the abstract sqrt parameter
in witnesses; it agrees with the real square root on perfect rational squares,
which is all the concrete witness inputs ever produce. -/
def ratSqrt (q : ℚ) : ℚ := (Nat.sqrt q.num.natAbs : ℚ) / (Nat.sqrt q.den : ℚ)

/-! ### RidgeRegression.js : matrix helpers -/

/-- Source `_transpose(m)`: `m[0].map((_, i) => m.map(row => row[i]))`. -/
def transpose (m : Mat) : Mat :=
  (List.range (m.headD []).length).map (fun i => m.map (fun row => row.getD i 0))

/-- Source `_matMul(a, b)`: `result[i][j] = sum over k of a[i][k] * b[k][j]`,
with `j < b[0].length` and `k < b.length`. -/
def matMul (a b : Mat) : Mat :=
  a.map (fun row =>
    (List.range (b.headD []).length).map (fun j =>
      ((List.range b.length).map (fun k => row.getD k 0 * (b.getD k []).getD j 0)).sum))

/-- Row `i` of the `n` by `n` identity matrix appended by `_inverse` when
building the augmented matrix. -/
def identRow (n i : ℕ) : Vec := (List.range n).map (fun j => if i = j then 1 else 0)

/-- Source: `aug = m.map((row, i) => [...row, ...identity row i])`. -/
def augment (m : Mat) : Mat := m.mapIdx (fun i row => row ++ identRow m.length i)

/-- The singularity floor `1e-10` of `_inverse`. -/
def pivotEps : ℚ := 1 / 10 ^ 10

/-- Partial-pivot search of `_inverse`: starting from `maxRow = i`, scan
`k = i+1 .. n-1` and keep `k` whenever `|aug[k][i]| > |aug[maxRow][i]|`. -/
def findPivot (aug : Mat) (i : ℕ) : ℕ :=
  (List.range' (i + 1) (aug.length - (i + 1))).foldl
    (fun maxRow k =>
      if |(aug.getD k []).getD i 0| > |(aug.getD maxRow []).getD i 0| then k else maxRow) i

/-- Source: `[aug[i], aug[maxRow]] = [aug[maxRow], aug[i]]`. -/
def swapRows (m : Mat) (i j : ℕ) : Mat :=
  let ri := m.getD i []
  let rj := m.getD j []
  (m.set i rj).set j ri

/-- The near-singularity guard of `_inverse`: when `|aug[i][i]| < 1e-10` the
pivot entry is overwritten with `1e-10` and elimination continues. -/
def pivotFloor (aug1 : Mat) (i : ℕ) : Mat :=
  if |(aug1.getD i []).getD i 0| < pivotEps
  then aug1.set i ((aug1.getD i []).set i pivotEps) else aug1

/-- One iteration of the Gauss-Jordan loop of `_inverse`: pivot selection, row
swap, the `< 1e-10` floor on the pivot, scaling of the pivot row, and
elimination in every other row.  The `none` result marks the only way the
elimination could degenerate (a zero scale divisor); the theorems below prove
it never happens on a square matrix, which is why the JavaScript routine, which
has no failure path at all, is a total function. -/
def elimStep (aug : Mat) (i : ℕ) : Option Mat :=
  let aug2 := pivotFloor (swapRows aug i (findPivot aug i)) i
  let scale := (aug2.getD i []).getD i 0
  if scale = 0 then none
  else
    let piv := (aug2.getD i []).map (fun v => v / scale)
    some ((aug2.set i piv).mapIdx (fun k row =>
      if k = i then row
      else List.zipWith (fun a b => a - row.getD i 0 * b) row piv))

/-- Source `_inverse(m)`: Gauss-Jordan on the augmented matrix, returning the right
half. -/
def inverse (m : Mat) : Option Mat :=
  let n := m.length
  ((List.range n).foldlM elimStep (augment m)).map (fun aug => aug.map (fun row => row.drop n))

/-! ### RidgeRegression.js : StandardScaler -/

/-- The mean loop of `_fitScaler`: accumulate row sums into a zero vector of
length `d = X[0].length`, then divide each entry by `n = X.length`. -/
def fitMean (X : Mat) : Vec :=
  let n := X.length
  let d := (X.headD []).length
  (X.foldl (fun acc row => List.zipWith (fun a b => a + b) acc row)
    (List.replicate d 0)).map (fun s => s / (n : ℚ))

/-- The std loop of `_fitScaler`: accumulate squared deviations, divide by `n`,
take the square root, and substitute `1` for a zero result
(`Math.sqrt(std[j] / n) || 1`). -/
def fitStd (rsqrt : ℚ → ℚ) (X : Mat) (mean : Vec) : Vec :=
  let n := X.length
  (X.foldl
      (fun acc row =>
        List.zipWith (fun a b => a + b) acc
          (List.zipWith (fun v mu => (v - mu) ^ 2) row mean))
      (List.replicate mean.length 0)).map
    (fun s => let r := rsqrt (s / (n : ℚ)); if r = 0 then 1 else r)

/-- Source `_transform` on a single sample: `(val - mean[j]) / std[j]`. -/
def transformRow (mean std row : Vec) : Vec :=
  row.mapIdx (fun j v => (v - mean.getD j 0) / std.getD j 0)

/-- Source `_transform` on a 2D array. -/
def transform (mean std : Vec) (X : Mat) : Mat := X.map (transformRow mean std)

/-- The regularization loop of `train`: `for i: XtX[i][i] += alpha`. -/
def diagAdd (m : Mat) (alpha : ℚ) : Mat :=
  (List.range m.length).foldl
    (fun acc i => acc.set i ((acc.getD i []).set i ((acc.getD i []).getD i 0 + alpha))) m

/-! ### RidgeRegression.js : the model -/

/-- The error taxonomy of the spec: `noFace` and `blinkDetected` are the
recoverable data-quality conditions of feature extraction, `notTrained` is the
programmer error thrown by `predict`. -/
inductive TrackError
  | noFace
  | blinkDetected
  | notTrained
deriving DecidableEq

/-- The fields of a `RidgeRegression` instance.  JavaScript `null` is `none`. -/
structure Model where
  alpha : ℚ
  weights : Option Mat
  bias : Option Vec
  trained : Bool
  mean : Option Vec
  std : Option Vec
deriving DecidableEq

/-- Constructor `new RidgeRegression(alpha)`. -/
def mkModel (alpha : ℚ) : Model :=
  { alpha := alpha, weights := none, bias := none, trained := false,
    mean := none, std := none }

/-- Source `train(X, y)`.  Returns the model state after the call: the early return on
fewer than 2 samples leaves the instance untouched; otherwise the scaler is
fitted (mutating `mean`/`std`), the features are standardized, a constant `1`
column is appended, the regularized normal equations are solved through
`_inverse`, and `weights`/`bias`/`trained` are set.  The `none` branch of the
match is the `if (!XtXInv)` early return of the source (at that point the
scaler fields are already mutated). -/
def train (rsqrt : ℚ → ℚ) (m : Model) (X Y : Mat) : Model :=
  if X.length < 2 then m
  else
    let d := (X.headD []).length
    let mean := fitMean X
    let std := fitStd rsqrt X mean
    let m1 := { m with mean := some mean, std := some std }
    let Xs := transform mean std X
    let XBias := Xs.map (fun row => row ++ [1])
    let XtX := matMul (transpose XBias) XBias
    let XtXr := diagAdd XtX m.alpha
    let XtY := matMul (transpose XBias) Y
    match inverse XtXr with
    | none => m1
    | some XtXInv =>
      let W := matMul XtXInv XtY
      { m1 with
          weights := some (W.take d), bias := some (W.getD d []),
          trained := true }

/-- Source `predict(features)`: throws the Model-not-trained error when the trained
flag is unset, otherwise standardizes the feature vector and returns
`bias[i] + sum over j of scaled[j] * weights[j][i]` for `i = 0, 1`. -/
def predict (m : Model) (features : Vec) : Except TrackError (ℚ × ℚ) :=
  if m.trained = false then Except.error TrackError.notTrained
  else
    let scaled := transformRow (m.mean.getD []) (m.std.getD []) features
    let coord := fun (i : ℕ) =>
      (m.bias.getD []).getD i 0 +
        (scaled.mapIdx (fun j v => v * ((m.weights.getD []).getD j []).getD i 0)).sum
    Except.ok (coord 0, coord 1)

/-- The serialized form produced by `toJSON`: exactly the six persisted
fields. -/
structure ModelJSON where
  alpha : ℚ
  weights : Option Mat
  bias : Option Vec
  trained : Bool
  mean : Option Vec
  std : Option Vec
deriving DecidableEq

/-- Source `toJSON()`. -/
def toJSON (m : Model) : ModelJSON :=
  { alpha := m.alpha, weights := m.weights, bias := m.bias,
    trained := m.trained, mean := m.mean, std := m.std }

/-- Source `fromJSON(data)`: construct with `data.alpha`, then assign the remaining
fields from the record. -/
def fromJSON (data : ModelJSON) : Model :=
  { mkModel data.alpha with
      weights := data.weights, bias := data.bias,
      trained := data.trained, mean := data.mean, std := data.std }

/-! ### GazeEstimator.js : blink detection

With no constructor options (as in `main.js`: `new GazeEstimator()`) the
capacity is 50, the minimum history 15, the threshold ratio 0.8 and the
default threshold 0.2. -/

/-- The adaptive-blink-threshold tail of `extractFeatures`: push the current
EAR, evict the oldest entry when the history exceeds 50, compute the active
threshold (0.2 until 15 entries, then `mean * 0.8`), and flag a blink when the
current EAR is strictly below it.  Returns the updated history, the active
threshold and the blink flag. -/
def earStep (history : Vec) (ear : ℚ) : Vec × ℚ × Bool :=
  let h1 := history ++ [ear]
  let h2 := if h1.length > 50 then h1.tail else h1
  let threshold :=
    if h2.length ≥ 15 then (h2.foldl (fun a b => a + b) 0) / (h2.length : ℚ) * (8 / 10)
    else 2 / 10
  (h2, threshold, decide (ear < threshold))

/-! ### GazeEstimator.js : pose normalization -/

abbrev V3 := ℚ × ℚ × ℚ

def vsub (a b : V3) : V3 := (a.1 - b.1, a.2.1 - b.2.1, a.2.2 - b.2.2)

def dot3 (a b : V3) : ℚ := a.1 * b.1 + a.2.1 * b.2.1 + a.2.2 * b.2.2

def cross3 (a b : V3) : V3 :=
  (a.2.1 * b.2.2 - a.2.2 * b.2.1,
   a.2.2 * b.1 - a.1 * b.2.2,
   a.1 * b.2.1 - a.2.1 * b.1)

def scale3 (c : ℚ) (v : V3) : V3 := (c * v.1, c * v.2.1, c * v.2.2)

/-- Source `_normalize(v)`: divide by `sqrt(|v|^2) + 1e-9`. -/
def normalize3 (rsqrt : ℚ → ℚ) (v : V3) : V3 :=
  let len := rsqrt (dot3 v v) + 1 / 10 ^ 9
  (v.1 / len, v.2.1 / len, v.2.2 / len)

/-- Source `_matVecMul(m, v)` with `m` given by its three rows. -/
def matVecMul3 (r : V3 × V3 × V3) (v : V3) : V3 :=
  (dot3 r.1 v, dot3 r.2.1 v, dot3 r.2.2 v)

/-- Source `_distance(a, b)`. -/
def distance3 (rsqrt : ℚ → ℚ) (a b : V3) : ℚ := rsqrt (dot3 (vsub a b) (vsub a b))

/-- POSE_LANDMARKS of constants.js. -/
def noseIdx : ℕ := 4
def leftEyeCornerIdx : ℕ := 33
def rightEyeCornerIdx : ℕ := 263
def topOfHeadIdx : ℕ := 10

/-- The 3x3 rotation basis `R = [xAxis, yApprox, zAxis]` built by
`extractFeatures` from the eye corners and the top-of-head landmark. -/
def poseBasis (rsqrt : ℚ → ℚ) (allPoints : List V3) : V3 × V3 × V3 :=
  let noseAnchor := allPoints.getD noseIdx (0, 0, 0)
  let leftCorner := allPoints.getD leftEyeCornerIdx (0, 0, 0)
  let rightCorner := allPoints.getD rightEyeCornerIdx (0, 0, 0)
  let topOfHead := allPoints.getD topOfHeadIdx (0, 0, 0)
  let xA := normalize3 rsqrt (vsub rightCorner leftCorner)
  let y0 := normalize3 rsqrt (vsub topOfHead noseAnchor)
  let dotXY := dot3 y0 xA
  let yA := normalize3 rsqrt (vsub y0 (scale3 dotXY xA))
  let zA := normalize3 rsqrt (cross3 xA yA)
  (xA, yA, zA)

/-- The inter-eye distance of `extractFeatures`, measured between the two eye
corners after shifting by the nose anchor and rotating by the basis. -/
def interEye (rsqrt : ℚ → ℚ) (allPoints : List V3) : ℚ :=
  let noseAnchor := allPoints.getD noseIdx (0, 0, 0)
  let leftCorner := allPoints.getD leftEyeCornerIdx (0, 0, 0)
  let rightCorner := allPoints.getD rightEyeCornerIdx (0, 0, 0)
  let R := poseBasis rsqrt allPoints
  let leftCornerRot := matVecMul3 R (vsub leftCorner noseAnchor)
  let rightCornerRot := matVecMul3 R (vsub rightCorner noseAnchor)
  distance3 rsqrt rightCornerRot leftCornerRot

/-- The pose-normalization pipeline of `extractFeatures`: shift every landmark
by the nose anchor, rotate by the basis, then scale every coordinate by the
inter-eye distance unless it is at or below the `1e-7` guard
(`interEyeDist > 1e-7 ? scaled : rotated`). -/
def poseNormalize (rsqrt : ℚ → ℚ) (allPoints : List V3) : List V3 :=
  let noseAnchor := allPoints.getD noseIdx (0, 0, 0)
  let shiftedPoints := allPoints.map (fun p => vsub p noseAnchor)
  let R := poseBasis rsqrt allPoints
  let rotatedPoints := shiftedPoints.map (matVecMul3 R)
  let interEyeDist := interEye rsqrt allPoints
  if interEyeDist > 1 / 10 ^ 7 then
    rotatedPoints.map (fun p => (p.1 / interEyeDist, p.2.1 / interEyeDist, p.2.2 / interEyeDist))
  else rotatedPoints

/-! ### CalibrationUI.js : the calibration run -/

/-- One iteration of a capture loop.  `cancel = true` means `cancel()` fired
before this iterations `isRunning` check (cancellation is cooperative).
`results = none` is a `null` return of `processFrame`; otherwise the pair is
what `extractFeatures` produced: an optional feature vector and the blink
flag. -/
structure Frame where
  cancel : Bool
  results : Option (Option Vec × Bool)
deriving DecidableEq

/-- The mutable state the run threads through the loops: the `isRunning` flag
and the accumulated `features` / `targets` arrays. -/
structure CalibState where
  isRunning : Bool
  features : Mat
  targets : Mat
deriving DecidableEq

/-- One iteration of the capture while-loop at a target `pt`: break when no
longer running, otherwise accept the sample exactly when features are present
and no blink was detected, pushing `[pt.x, pt.y]` alongside. -/
def calibFrame (pt : ℚ × ℚ) (g : CalibState) (f : Frame) : CalibState :=
  if !g.isRunning then g
  else if f.cancel then { g with isRunning := false }
  else
    match f.results with
    | none => g
    | some (none, _) => g
    | some (some feats, blink) =>
      if blink then g
      else { g with features := g.features ++ [feats], targets := g.targets ++ [[pt.1, pt.2]] }

/-- The body of the for-loop over calibration targets: skip the point when the
run was cancelled, otherwise process its capture frames in order. -/
def capturePoint (g : CalibState) (pt : (ℚ × ℚ) × List Frame) : CalibState :=
  if !g.isRunning then g
  else pt.2.foldl (calibFrame pt.1) g

/-- The state after the target loop of `_runCalibration`, started from a fresh
`start()` (empty sample arrays, `isRunning = true`). -/
def calibLoop (pts : List ((ℚ × ℚ) × List Frame)) : CalibState :=
  pts.foldl capturePoint { isRunning := true, features := [], targets := [] }

/-- The tail of `_runCalibration`: after the target loop, train on the
accumulated samples when at least 20 were collected (reporting `true` through
`onComplete`, since `train` completes without throwing), otherwise leave the
model untouched and report `false`.  Returns the model of the shared
`gazeEstimator` together with the reported flag. -/
def runCalibration (rsqrt : ℚ → ℚ) (model : Model)
    (pts : List ((ℚ × ℚ) × List Frame)) : Model × Bool :=
  let g := calibLoop pts
  if g.features.length ≥ 20 then (train rsqrt model g.features g.targets, true)
  else (model, false)

/-! ### The foveated-LOD computation of the fragment shaders -/

/-- GLSL `clamp`. -/
def clamp (x lo hi : ℚ) : ℚ := min (max x lo) hi

/-- GLSL `smoothstep(e0, e1, x)`: clamp the normalized position to `[0, 1]`
and apply the cubic Hermite polynomial. -/
def smoothstep (e0 e1 x : ℚ) : ℚ :=
  let t := clamp ((x - e0) / (e1 - e0)) 0 1
  t * t * (3 - 2 * t)

/-- Shader `lod = smoothstep(radius * 0.3, radius * 2.5, distToGaze)` as in the
fragment shaders of RaymarchingRenderer.js and the scene files. -/
def foveaLod (radius dist : ℚ) : ℚ :=
  smoothstep (radius * (3 / 10)) (radius * (25 / 10)) dist

/-- Shader `distToGaze = length(uv - u_gaze)` feeding `foveaLod`, with the shader
`length` expressed through the abstract square root. -/
def lodAt (rsqrt : ℚ → ℚ) (uv gaze : ℚ × ℚ) (radius : ℚ) : ℚ :=
  foveaLod radius (rsqrt ((uv.1 - gaze.1) ^ 2 + (uv.2 - gaze.2) ^ 2))

/-! ### Helper lemmas -/

lemma getD_in_bounds {α : Type} (l : List α) (i : ℕ) (d : α) (h : i < l.length) :
    l.getD i d = l[i] := by
  rw [List.getD_eq_getElem?_getD, List.getElem?_eq_getElem h, Option.getD_some]

/-- Reconstructing a model from its serialized form restores every field. -/
lemma fromJSON_toJSON (m : Model) : fromJSON (toJSON m) = m := rfl

/-! ### Claim C4 -/

/-- C4: serializing a trained model through `toJSON` (which persists exactly
alpha, weights, bias, mean, std and the trained flag) and reconstructing it
with `fromJSON` yields a model whose `predict` returns identical results to the
original model on every feature vector of the trained length. -/
theorem serialize_roundtrip_predict (m : Model) (f : Vec)
    (htr : m.trained = true) (hlen : f.length = (m.mean.getD []).length) :
    predict (fromJSON (toJSON m)) f = predict m f := by
  rw [fromJSON_toJSON]

theorem serialize_roundtrip_predict_witness :
    predict (fromJSON (toJSON
        { alpha := 1, weights := some [[1, 2]], bias := some [3, 4],
          trained := true, mean := some [5], std := some [2] })) [7] =
      predict
        { alpha := 1, weights := some [[1, 2]], bias := some [3, 4],
          trained := true, mean := some [5], std := some [2] } [7] :=
  serialize_roundtrip_predict _ [7] rfl (by decide)

/-! ### Claim C5 -/

/-- C5: `train` called with fewer than 2 samples fails (returns through the
early-exit branch) and leaves every field of the model exactly as it was. -/
theorem train_too_few_samples (rsqrt : ℚ → ℚ) (m : Model) (X Y : Mat)
    (h : X.length < 2) : train rsqrt m X Y = m := by
  unfold train
  rw [if_pos h]

theorem train_too_few_samples_witness :
    train ratSqrt
        { alpha := 1, weights := some [[1, 2]], bias := some [3, 4],
          trained := true, mean := some [5], std := some [2] } [[9]] [[1, 2]] =
      { alpha := 1, weights := some [[1, 2]], bias := some [3, 4],
        trained := true, mean := some [5], std := some [2] } :=
  train_too_few_samples ratSqrt _ [[9]] [[1, 2]] (by decide)

/-! ### Claim C6 -/

/-- C6: `predict` on a model whose trained flag is false always fails with the
explicit not-trained error, which is distinct from the recoverable data-quality
conditions (no face, blink), and never returns a coordinate pair. -/
theorem predict_untrained (m : Model) (f : Vec) (h : m.trained = false) :
    predict m f = Except.error TrackError.notTrained ∧
      (∀ p : ℚ × ℚ, predict m f ≠ Except.ok p) ∧
      TrackError.notTrained ≠ TrackError.noFace ∧
      TrackError.notTrained ≠ TrackError.blinkDetected := by
  have he : predict m f = Except.error TrackError.notTrained := by
    unfold predict
    rw [if_pos h]
  refine ⟨he, fun p hp => ?_, by decide, by decide⟩
  rw [he] at hp
  exact Except.noConfusion hp

theorem predict_untrained_witness :
    predict (mkModel 1) [3] = Except.error TrackError.notTrained ∧
      (∀ p : ℚ × ℚ, predict (mkModel 1) [3] ≠ Except.ok p) ∧
      TrackError.notTrained ≠ TrackError.noFace ∧
      TrackError.notTrained ≠ TrackError.blinkDetected :=
  predict_untrained (mkModel 1) [3] rfl

/-! ### Claim C8 : smoothstep lemmas -/

lemma clamp01_nonneg (x : ℚ) : 0 ≤ clamp x 0 1 := by
  unfold clamp
  exact le_min (le_max_right x 0) zero_le_one

lemma clamp01_le_one (x : ℚ) : clamp x 0 1 ≤ 1 := by
  unfold clamp
  exact min_le_right _ _

lemma clamp01_mono {x y : ℚ} (h : x ≤ y) : clamp x 0 1 ≤ clamp y 0 1 := by
  unfold clamp
  exact min_le_min (max_le_max h le_rfl) le_rfl

lemma cubic_mono {t1 t2 : ℚ} (h0 : 0 ≤ t1) (h12 : t1 ≤ t2) (h1 : t2 ≤ 1) :
    t1 * t1 * (3 - 2 * t1) ≤ t2 * t2 * (3 - 2 * t2) := by
  nlinarith [mul_nonneg (sub_nonneg.2 h12) (mul_nonneg h0 (sub_nonneg.2 h1)),
    mul_nonneg (sub_nonneg.2 h12) (mul_nonneg (h0.trans h12) (sub_nonneg.2 (h12.trans h1))),
    mul_nonneg (sub_nonneg.2 h12) (mul_nonneg h0 (sub_nonneg.2 (h12.trans h1))),
    mul_nonneg (sub_nonneg.2 h12) (mul_nonneg (h0.trans h12) (sub_nonneg.2 h1))]

lemma smoothstep_nonneg (e0 e1 x : ℚ) : 0 ≤ smoothstep e0 e1 x := by
  unfold smoothstep
  have h0 := clamp01_nonneg ((x - e0) / (e1 - e0))
  have h1 := clamp01_le_one ((x - e0) / (e1 - e0))
  nlinarith

lemma smoothstep_le_one (e0 e1 x : ℚ) : smoothstep e0 e1 x ≤ 1 := by
  unfold smoothstep
  have h0 := clamp01_nonneg ((x - e0) / (e1 - e0))
  have h1 := clamp01_le_one ((x - e0) / (e1 - e0))
  nlinarith [sq_nonneg (1 - clamp ((x - e0) / (e1 - e0)) 0 1)]

lemma smoothstep_mono (e0 e1 : ℚ) (hlt : e0 < e1) {x1 x2 : ℚ} (h : x1 ≤ x2) :
    smoothstep e0 e1 x1 ≤ smoothstep e0 e1 x2 := by
  unfold smoothstep
  have hd : 0 < e1 - e0 := sub_pos.mpr hlt
  have hratio : (x1 - e0) / (e1 - e0) ≤ (x2 - e0) / (e1 - e0) := by
    gcongr
  exact cubic_mono (clamp01_nonneg _) (clamp01_mono hratio) (clamp01_le_one _)

lemma smoothstep_below (e0 e1 x : ℚ) (hlt : e0 < e1) (hx : x ≤ e0) :
    smoothstep e0 e1 x = 0 := by
  unfold smoothstep clamp
  have hd : 0 < e1 - e0 := sub_pos.mpr hlt
  have hle : (x - e0) / (e1 - e0) ≤ 0 := div_nonpos_iff.mpr (Or.inr ⟨by linarith, hd.le⟩)
  rw [max_eq_right hle, min_eq_left zero_le_one]
  ring

lemma smoothstep_above (e0 e1 x : ℚ) (hlt : e0 < e1) (hx : e1 ≤ x) :
    smoothstep e0 e1 x = 1 := by
  unfold smoothstep clamp
  have hd : 0 < e1 - e0 := sub_pos.mpr hlt
  have hge : (1 : ℚ) ≤ (x - e0) / (e1 - e0) := by
    rw [le_div_iff hd]
    linarith
  rw [max_eq_left (le_trans zero_le_one hge), min_eq_right hge]
  ring

/-- C8: with `lod = smoothstep(radius * 0.3, radius * 2.5, distance)` and any
positive fovea radius, the LOD value always lies in `[0, 1]`, is non-decreasing
in the distance to the gaze point, is `0` at distance `0` and at any distance
at most `radius * 0.3`, and is `1` at any distance at least `radius * 2.5`. -/
theorem foveaLod_props (radius : ℚ) (hr : 0 < radius) :
    (∀ d, 0 ≤ foveaLod radius d ∧ foveaLod radius d ≤ 1) ∧
      (∀ d1 d2, d1 ≤ d2 → foveaLod radius d1 ≤ foveaLod radius d2) ∧
      foveaLod radius 0 = 0 ∧
      (∀ d, d ≤ radius * (3 / 10) → foveaLod radius d = 0) ∧
      (∀ d, radius * (25 / 10) ≤ d → foveaLod radius d = 1) := by
  have hlt : radius * (3 / 10) < radius * (25 / 10) := by nlinarith
  refine ⟨fun d => ⟨smoothstep_nonneg _ _ _, smoothstep_le_one _ _ _⟩,
    fun d1 d2 h => smoothstep_mono _ _ hlt h,
    smoothstep_below _ _ _ hlt (by nlinarith),
    fun d hd => smoothstep_below _ _ _ hlt hd,
    fun d hd => smoothstep_above _ _ _ hlt hd⟩

theorem foveaLod_props_witness :
    foveaLod 1 0 = 0 ∧ foveaLod 1 3 = 1 :=
  ⟨(foveaLod_props 1 (by norm_num)).2.2.1,
   (foveaLod_props 1 (by norm_num)).2.2.2.2 3 (by norm_num)⟩

/-! ### Claim C7 -/

/-- C7: the rolling EAR history has fixed capacity 50 with the oldest value
evicted on overflow; after the update the active threshold is the fixed
default 0.2 while the history holds fewer than 15 values and `mean(history) *
0.8` once it holds at least 15; the blink flag is set exactly when the current
EAR is strictly below the active threshold. -/
theorem blink_detector_props (h : Vec) (e : ℚ) (hcap : h.length ≤ 50) :
    (earStep h e).1.length ≤ 50 ∧
      (h.length < 50 → (earStep h e).1 = h ++ [e]) ∧
      (h.length = 50 → (earStep h e).1 = (h ++ [e]).tail) ∧
      ((earStep h e).1.length < 15 → (earStep h e).2.1 = 2 / 10) ∧
      (15 ≤ (earStep h e).1.length →
        (earStep h e).2.1 = (earStep h e).1.sum / ((earStep h e).1.length : ℚ) * (8 / 10)) ∧
      ((earStep h e).2.2 = true ↔ e < (earStep h e).2.1) := by
  have hlen1 : (h ++ [e]).length = h.length + 1 := by simp
  by_cases h50 : (h ++ [e]).length > 50
  · have hl : h.length = 50 := by omega
    have hlt : ((h ++ [e]).tail).length = 50 := by
      rw [List.length_tail, hlen1, hl]
    have h15 : 15 ≤ ((h ++ [e]).tail).length := by omega
    simp only [earStep, if_pos h50, ge_iff_le, if_pos h15, ← List.sum_eq_foldl]
    refine ⟨by omega, fun hc => absurd hl (by omega), fun _ => trivial,
      fun hc => absurd hc (by omega), fun _ => trivial, by simp⟩
  · have hle : (h ++ [e]).length ≤ 50 := by omega
    have hlt : h.length < 50 := by omega
    simp only [earStep, if_neg h50, ge_iff_le, ← List.sum_eq_foldl]
    by_cases h15 : 15 ≤ (h ++ [e]).length
    · simp only [if_pos h15]
      refine ⟨hle, fun _ => trivial, fun hc => absurd hc (by omega),
        fun hc => absurd hc (by omega), fun _ => trivial, by simp⟩
    · simp only [if_neg h15]
      refine ⟨hle, fun _ => trivial, fun hc => absurd hc (by omega), fun _ => trivial,
        fun hc => absurd hc (by omega), by simp⟩

theorem blink_detector_props_witness :
    (earStep (List.replicate 14 (3 / 10)) (1 / 10)).2.2 = true :=
  ((blink_detector_props (List.replicate 14 (3 / 10)) (1 / 10) (by simp)).2.2.2.2.2).mpr
    (by norm_num [earStep, List.replicate])

/-! ### Claim C9 -/

/-- C9: pose normalization shifts every landmark by the nose anchor and
rotates it by the constructed 3x3 basis; when the inter-eye distance measured
between the rotated eye corners does not exceed the `1e-7` floor the scaling
division is skipped and the rotated coordinates are used unchanged, and
otherwise every coordinate of every rotated landmark is divided by that
inter-eye distance — so the division is only ever performed with a divisor
strictly above `1e-7`, never by a near-zero scale. -/
theorem pose_normalize_props (rsqrt : ℚ → ℚ) (pts : List V3) :
    (interEye rsqrt pts ≤ 1 / 10 ^ 7 →
      poseNormalize rsqrt pts =
        pts.map (fun p =>
          matVecMul3 (poseBasis rsqrt pts) (vsub p (pts.getD noseIdx (0, 0, 0))))) ∧
      (1 / 10 ^ 7 < interEye rsqrt pts →
        poseNormalize rsqrt pts =
          pts.map (fun p =>
            let q := matVecMul3 (poseBasis rsqrt pts) (vsub p (pts.getD noseIdx (0, 0, 0)))
            (q.1 / interEye rsqrt pts, q.2.1 / interEye rsqrt pts,
              q.2.2 / interEye rsqrt pts))) := by
  constructor
  · intro hle
    rw [poseNormalize, if_neg (not_lt.2 hle)]
    simp [List.map_map, Function.comp]
  · intro hgt
    rw [poseNormalize, if_pos hgt]
    simp [List.map_map, Function.comp]

theorem pose_normalize_props_witness :
    poseNormalize ratSqrt [] = [] := by
  have h : interEye ratSqrt [] ≤ 1 / 10 ^ 7 := by
    norm_num [interEye, poseBasis, distance3, matVecMul3, dot3, vsub, normalize3,
      cross3, scale3, ratSqrt]
  simpa using (pose_normalize_props ratSqrt []).1 h

/-! ### Shape lemmas for the Gauss-Jordan elimination -/

lemma getD_set_eq {α : Type} (l : List α) (i : ℕ) (a d : α) (h : i < l.length) :
    (l.set i a).getD i d = a := by
  rw [getD_in_bounds _ _ _ (by rw [List.length_set]; exact h), List.getElem_set, if_pos rfl]

lemma getD_set_ne {α : Type} (l : List α) {i j : ℕ} (a d : α) (h : i ≠ j) :
    (l.set i a).getD j d = l.getD j d := by
  rw [List.getD_eq_getElem?_getD, List.getElem?_set_ne h, ← List.getD_eq_getElem?_getD]

lemma rows_set {m : Mat} {k : ℕ} (i : ℕ) {r : Vec}
    (hm : ∀ row ∈ m, row.length = k) (hr : r.length = k) :
    ∀ row ∈ m.set i r, row.length = k := by
  intro row hrow
  rcases List.mem_or_eq_of_mem_set hrow with h | h
  · exact hm row h
  · rw [h, hr]

lemma getD_row_len {m : Mat} {k i : ℕ} (hm : ∀ row ∈ m, row.length = k)
    (hi : i < m.length) : (m.getD i []).length = k := by
  rw [getD_in_bounds _ _ _ hi]
  exact hm _ (List.getElem_mem hi)

lemma findPivot_lt {aug : Mat} {i n : ℕ} (hi : i < n) (hlen : aug.length = n) :
    findPivot aug i < n := by
  unfold findPivot
  rw [hlen]
  have key : ∀ (L : List ℕ) (acc : ℕ), acc < n → (∀ k ∈ L, k < n) →
      L.foldl (fun maxRow k =>
        if |(aug.getD k []).getD i 0| > |(aug.getD maxRow []).getD i 0| then k
        else maxRow) acc < n := by
    intro L
    induction L with
    | nil => intro acc h _; simpa using h
    | cons a L ih =>
      intro acc hacc hL
      rw [List.foldl_cons]
      apply ih
      · by_cases hc : |(aug.getD a []).getD i 0| > |(aug.getD acc []).getD i 0|
        · rw [if_pos hc]; exact hL a (List.mem_cons_self a L)
        · rw [if_neg hc]; exact hacc
      · exact fun k hk => hL k (List.mem_cons_of_mem a hk)
  exact key _ i hi (fun k hk => by rw [List.mem_range'_1] at hk; omega)

lemma swapRows_shape {aug : Mat} {n i j : ℕ} (hi : i < n) (hj : j < n)
    (hlen : aug.length = n) (hrows : ∀ r ∈ aug, r.length = 2 * n) :
    (swapRows aug i j).length = n ∧ ∀ r ∈ swapRows aug i j, r.length = 2 * n := by
  constructor
  · simp [swapRows, List.length_set, hlen]
  · exact rows_set j (rows_set i hrows (getD_row_len hrows (hlen ▸ hj)))
      (getD_row_len hrows (hlen ▸ hi))

lemma pivotFloor_shape {aug1 : Mat} {n i : ℕ} (hi : i < n)
    (hlen : aug1.length = n) (hrows : ∀ r ∈ aug1, r.length = 2 * n) :
    (pivotFloor aug1 i).length = n ∧ ∀ r ∈ pivotFloor aug1 i, r.length = 2 * n := by
  unfold pivotFloor
  split
  · refine ⟨by simp [List.length_set, hlen], rows_set i hrows ?_⟩
    rw [List.length_set]
    exact getD_row_len hrows (hlen ▸ hi)
  · exact ⟨hlen, hrows⟩

lemma pivotFloor_pivot_ne {aug1 : Mat} {n i : ℕ} (hi : i < n)
    (hlen : aug1.length = n) (hrows : ∀ r ∈ aug1, r.length = 2 * n) :
    ((pivotFloor aug1 i).getD i []).getD i 0 ≠ 0 := by
  have hi' : i < aug1.length := hlen ▸ hi
  have hrow : (aug1.getD i []).length = 2 * n := getD_row_len hrows hi'
  have hii : i < (aug1.getD i []).length := by omega
  unfold pivotFloor
  split
  · rw [getD_set_eq _ _ _ _ hi', getD_set_eq _ _ _ _ hii]
    norm_num [pivotEps]
  · rename_i hp
    intro h0
    rw [h0] at hp
    exact hp (by norm_num [pivotEps])

lemma elimStep_some {aug : Mat} {n i : ℕ} (hi : i < n) (hlen : aug.length = n)
    (hrows : ∀ r ∈ aug, r.length = 2 * n) :
    ∃ res, elimStep aug i = some res ∧ res.length = n ∧ ∀ r ∈ res, r.length = 2 * n := by
  have hmax : findPivot aug i < n := findPivot_lt hi hlen
  obtain ⟨hlen1, hrows1⟩ := swapRows_shape hi hmax hlen hrows
  obtain ⟨hlen2, hrows2⟩ := pivotFloor_shape hi hlen1 hrows1
  have hne := pivotFloor_pivot_ne hi hlen1 hrows1
  simp only [elimStep]
  rw [if_neg hne]
  refine ⟨_, rfl, by simp [List.length_mapIdx, List.length_set, hlen2], ?_⟩
  intro r hr
  rw [List.mem_iff_getElem] at hr
  obtain ⟨k, hk, hkr⟩ := hr
  have hk2 : k < ((pivotFloor (swapRows aug i (findPivot aug i)) i).set i
      ((pivotFloor (swapRows aug i (findPivot aug i)) i).getD i [] |>.map
        (fun v => v / ((pivotFloor (swapRows aug i (findPivot aug i)) i).getD i []).getD i 0))).length := by
    simpa using hk
  rw [List.getElem_mapIdx] at hkr
  have hpivlen : ((pivotFloor (swapRows aug i (findPivot aug i)) i).getD i [] |>.map
      (fun v => v / ((pivotFloor (swapRows aug i (findPivot aug i)) i).getD i []).getD i 0)).length = 2 * n := by
    rw [List.length_map]
    exact getD_row_len hrows2 (hlen2 ▸ hi)
  have hsetrows := rows_set i hrows2 hpivlen
  have hrowk : (((pivotFloor (swapRows aug i (findPivot aug i)) i).set i
      ((pivotFloor (swapRows aug i (findPivot aug i)) i).getD i [] |>.map
        (fun v => v / ((pivotFloor (swapRows aug i (findPivot aug i)) i).getD i []).getD i 0)))[k]).length = 2 * n :=
    hsetrows _ (List.getElem_mem hk2)
  rw [← hkr]
  split
  · exact hrowk
  · rw [List.length_zipWith, hrowk, hpivlen, min_self]

lemma foldlM_elim_some {n : ℕ} : ∀ (L : List ℕ) (aug : Mat), (∀ i ∈ L, i < n) →
    aug.length = n → (∀ r ∈ aug, r.length = 2 * n) →
    ∃ res, List.foldlM elimStep aug L = some res ∧ res.length = n ∧
      ∀ r ∈ res, r.length = 2 * n := by
  intro L
  induction L with
  | nil =>
    intro aug _ hlen hrows
    exact ⟨aug, by simp [List.foldlM_nil], hlen, hrows⟩
  | cons a L ih =>
    intro aug hL hlen hrows
    obtain ⟨mid, hmid, hmlen, hmrows⟩ :=
      elimStep_some (hL a (List.mem_cons_self a L)) hlen hrows
    obtain ⟨res, hres, hrlen, hrrows⟩ :=
      ih mid (fun k hk => hL k (List.mem_cons_of_mem a hk)) hmlen hmrows
    refine ⟨res, ?_, hrlen, hrrows⟩
    rw [List.foldlM_cons, hmid]
    exact hres

/-- On a square matrix the Gauss-Jordan routine always produces a matrix of the
same shape: the pivot floor keeps every scale divisor nonzero. -/
lemma inverse_some {m : Mat} (hsq : ∀ r ∈ m, r.length = m.length) :
    ∃ inv, inverse m = some inv ∧ inv.length = m.length ∧
      ∀ r ∈ inv, r.length = m.length := by
  have haug_len : (augment m).length = m.length := by simp [augment]
  have haug_rows : ∀ r ∈ augment m, r.length = 2 * m.length := by
    intro r hr
    rw [List.mem_iff_getElem] at hr
    obtain ⟨k, hk, hkr⟩ := hr
    have hk' : k < m.length := by simpa [augment] using hk
    simp only [augment] at hkr
    rw [List.getElem_mapIdx] at hkr
    rw [← hkr, List.length_append, hsq _ (List.getElem_mem hk')]
    simp [identRow]
    omega
  obtain ⟨res, hres, hrlen, hrrows⟩ :=
    foldlM_elim_some (List.range m.length) (augment m)
      (fun i hi => List.mem_range.mp hi) haug_len haug_rows
  refine ⟨res.map (fun row => row.drop m.length), ?_, by simp [hrlen], ?_⟩
  · rw [inverse, hres]
    rfl
  · intro r hr
    rw [List.mem_map] at hr
    obtain ⟨row, hrow, hrowr⟩ := hr
    rw [← hrowr, List.length_drop, hrrows row hrow]
    omega

/-! ### Shape of the regularization loop and of train -/

lemma diagAdd_fold_shape {k : ℕ} (alpha : ℚ) :
    ∀ (L : List ℕ) (M : Mat), (∀ r ∈ M, r.length = k) →
      (L.foldl (fun acc i =>
          acc.set i ((acc.getD i []).set i ((acc.getD i []).getD i 0 + alpha))) M).length =
        M.length ∧
      ∀ r ∈ L.foldl (fun acc i =>
          acc.set i ((acc.getD i []).set i ((acc.getD i []).getD i 0 + alpha))) M,
        r.length = k := by
  intro L
  induction L with
  | nil => intro M hM; exact ⟨rfl, hM⟩
  | cons a L ih =>
    intro M hM
    rw [List.foldl_cons]
    by_cases ha : a < M.length
    · obtain ⟨h1, h2⟩ := ih (M.set a ((M.getD a []).set a ((M.getD a []).getD a 0 + alpha)))
        (rows_set a hM (by rw [List.length_set]; exact getD_row_len hM ha))
      exact ⟨by rw [h1, List.length_set], h2⟩
    · rw [List.set_eq_of_length_le (by omega)]
      exact ih M hM

lemma diagAdd_shape {M : Mat} {k : ℕ} (alpha : ℚ) (hM : ∀ r ∈ M, r.length = k) :
    (diagAdd M alpha).length = M.length ∧ ∀ r ∈ diagAdd M alpha, r.length = k :=
  diagAdd_fold_shape alpha (List.range M.length) M hM

/-- Shape of the matrix pipeline inside `train`: starting from `n >= 1` samples
of equal length `d`, the regularized Gram matrix is square of size `d + 1`. -/
lemma train_gram_square (rsqrt : ℚ → ℚ) (alpha : ℚ) (x : Vec) (Xt : Mat)
    (hd : ∀ r ∈ (x :: Xt), r.length = x.length) :
    ∀ r ∈ diagAdd (matMul
        (transpose ((transform (fitMean (x :: Xt)) (fitStd rsqrt (x :: Xt) (fitMean (x :: Xt)))
            (x :: Xt)).map (fun row => row ++ [1])))
        ((transform (fitMean (x :: Xt)) (fitStd rsqrt (x :: Xt) (fitMean (x :: Xt)))
            (x :: Xt)).map (fun row => row ++ [1]))) alpha,
      r.length = (diagAdd (matMul
        (transpose ((transform (fitMean (x :: Xt)) (fitStd rsqrt (x :: Xt) (fitMean (x :: Xt)))
            (x :: Xt)).map (fun row => row ++ [1])))
        ((transform (fitMean (x :: Xt)) (fitStd rsqrt (x :: Xt) (fitMean (x :: Xt)))
            (x :: Xt)).map (fun row => row ++ [1]))) alpha).length := by
  set mean := fitMean (x :: Xt)
  set std := fitStd rsqrt (x :: Xt) mean
  set XBias := (transform mean std (x :: Xt)).map (fun row => row ++ [1]) with hXB
  have hhead : (XBias.headD []).length = x.length + 1 := by
    rw [hXB]
    simp [transform, transformRow]
  have hXtX_len : (matMul (transpose XBias) XBias).length = x.length + 1 := by
    rw [matMul, List.length_map, transpose, List.length_map, List.length_range, hhead]
  have hXtX_rows : ∀ r ∈ matMul (transpose XBias) XBias, r.length = x.length + 1 := by
    intro r hr
    rw [matMul, List.mem_map] at hr
    obtain ⟨row, _, hrow⟩ := hr
    rw [← hrow, List.length_map, List.length_range, hhead]
  obtain ⟨hdl, hdr⟩ := diagAdd_shape alpha hXtX_rows
  intro r hr
  rw [hdl, hXtX_len]
  exact hdr r hr

/-- Lemma about `train` on the happy path, phrased through an explicit inverse: once the
Gauss-Jordan routine produces a matrix, the call ends with the weight matrix,
the bias row and the trained flag set. -/
lemma train_eq_of_inverse (rsqrt : ℚ → ℚ) (m : Model) (X Y : Mat) (inv : Mat)
    (h2 : ¬X.length < 2)
    (hinv : inverse (diagAdd (matMul
        (transpose ((transform (fitMean X) (fitStd rsqrt X (fitMean X)) X).map
          (fun row => row ++ [1])))
        ((transform (fitMean X) (fitStd rsqrt X (fitMean X)) X).map
          (fun row => row ++ [1]))) m.alpha) = some inv) :
    train rsqrt m X Y =
      { alpha := m.alpha, mean := some (fitMean X),
        std := some (fitStd rsqrt X (fitMean X)),
        weights := some ((matMul inv (matMul
          (transpose ((transform (fitMean X) (fitStd rsqrt X (fitMean X)) X).map
            (fun row => row ++ [1]))) Y)).take (X.headD []).length),
        bias := some ((matMul inv (matMul
          (transpose ((transform (fitMean X) (fitStd rsqrt X (fitMean X)) X).map
            (fun row => row ++ [1]))) Y)).getD (X.headD []).length []),
        trained := true } := by
  simp only [train, if_neg h2, hinv]

/-- With at least two samples of equal feature length, `train` always ends
with the trained flag set: the inversion cannot fail. -/
lemma train_trained_aux (rsqrt : ℚ → ℚ) (m : Model) (X Y : Mat)
    (h2 : 2 ≤ X.length) (hd : ∀ r ∈ X, r.length = (X.headD []).length) :
    (train rsqrt m X Y).trained = true := by
  rcases X with _ | ⟨x, Xt⟩
  · simp at h2
  have hd' : ∀ r ∈ (x :: Xt), r.length = x.length := by
    simpa using hd
  obtain ⟨inv, hinv, _, _⟩ := inverse_some (train_gram_square rsqrt m.alpha x Xt hd')
  rw [train_eq_of_inverse rsqrt m (x :: Xt) Y inv (by simp at h2 ⊢; omega) hinv]

/-! ### Claim C10 -/

/-- C10: the Gauss-Jordan inversion routine never signals failure on a square
input (a pivot with magnitude below `1e-10` is replaced by `1e-10` and
elimination continues), so the inversion-failed branch of `train` is
unreachable and `train` on at least 2 samples of equal feature length always
terminates with the trained flag set. -/
theorem inversion_total_train_succeeds (M : Mat) (hM : ∀ r ∈ M, r.length = M.length)
    (rsqrt : ℚ → ℚ) (m : Model) (X Y : Mat) (h2 : 2 ≤ X.length)
    (hd : ∀ r ∈ X, r.length = (X.headD []).length) :
    (inverse M).isSome = true ∧ (train rsqrt m X Y).trained = true := by
  constructor
  · obtain ⟨inv, hinv, _, _⟩ := inverse_some hM
    rw [hinv]
    rfl
  · exact train_trained_aux rsqrt m X Y h2 hd

theorem inversion_total_train_succeeds_witness :
    (inverse [[0, 0], [0, 0]]).isSome = true ∧
      (train ratSqrt (mkModel 1) [[1], [4]] [[1, 2], [3, 4]]).trained = true :=
  inversion_total_train_succeeds [[0, 0], [0, 0]] (by decide) ratSqrt (mkModel 1)
    [[1], [4]] [[1, 2], [3, 4]] (by decide) (by decide)

/-! ### Claim C1 : spec-side definitions

These definitions follow the wording of the specification, not the loops of
the source: the per-dimension population statistics are written as closed
sums over the j-th column, and the regularized normal-equation matrix is
written as the algebraic `Xb^T Xb + alpha I`. -/

/-- The j-th feature column. -/
def colVals (X : Mat) (j : ℕ) : Vec := X.map (fun row => row.getD j 0)

/-- Spec: the per-dimension mean across all samples. -/
def specMean (X : Mat) : Vec :=
  (List.range (X.headD []).length).map (fun j => (colVals X j).sum / (X.length : ℚ))

/-- Spec: the per-dimension population standard deviation (divide by `n`),
with a zero result replaced by 1. -/
def specStd (rsqrt : ℚ → ℚ) (X : Mat) : Vec :=
  (List.range (X.headD []).length).map (fun j =>
    let mu := (colVals X j).sum / (X.length : ℚ)
    let v := ((colVals X j).map (fun x => (x - mu) ^ 2)).sum / (X.length : ℚ)
    let s := rsqrt v
    if s = 0 then 1 else s)

/-- The `n` by `n` identity matrix. -/
def identityMat (n : ℕ) : Mat := (List.range n).map (identRow n)

/-- Entrywise matrix sum. -/
def matAdd (a b : Mat) : Mat := List.zipWith (List.zipWith (fun u v => u + v)) a b

/-- Scalar multiple of a matrix. -/
def smulMat (c : ℚ) (m : Mat) : Mat := m.map (fun r => r.map (fun v => c * v))

/-! ### Claim C1 : the accumulation loops equal the closed-form sums -/

lemma getD_replicate_zero (d j : ℕ) : (List.replicate d (0 : ℚ)).getD j 0 = 0 := by
  rcases lt_or_ge j d with h | h
  · rw [getD_in_bounds _ _ _ (by simpa using h), List.getElem_replicate]
  · exact List.getD_eq_default _ _ (by simpa using h)

lemma foldl_zipWith_add (g : Vec → Vec) :
    ∀ (X : Mat) (acc : Vec), (∀ r ∈ X, (g r).length = acc.length) →
      X.foldl (fun a r => List.zipWith (fun u v => u + v) a (g r)) acc =
        (List.range acc.length).map
          (fun j => acc.getD j 0 + (X.map (fun r => (g r).getD j 0)).sum) := by
  intro X
  induction X with
  | nil =>
    intro acc _
    rw [List.foldl_nil]
    apply List.ext_getElem (by simp)
    intro n h1 h2
    simp [getD_in_bounds _ _ _ h1, List.getElem?_eq_getElem h1]
  | cons r X ih =>
    intro acc h
    rw [List.foldl_cons]
    have hzl : (List.zipWith (fun u v => u + v) acc (g r)).length = acc.length := by
      rw [List.length_zipWith, h r (List.mem_cons_self r X), min_self]
    rw [ih _ (fun q hq => by rw [hzl]; exact h q (List.mem_cons_of_mem r hq)), hzl]
    apply List.map_congr_left
    intro j hj
    rw [List.mem_range] at hj
    have hj2 : j < (List.zipWith (fun u v => u + v) acc (g r)).length := by omega
    rw [getD_in_bounds _ _ _ hj2, List.getElem_zipWith,
      getD_in_bounds _ _ _ hj]
    simp only [List.map_cons, List.sum_cons]
    rw [getD_in_bounds (g r) j 0 (by rw [h r (List.mem_cons_self r X)]; exact hj)]
    ring

/-- The mean loop of `_fitScaler` computes the spec mean. -/
lemma fitMean_eq_specMean (X : Mat)
    (hd : ∀ r ∈ X, r.length = (X.headD []).length) :
    fitMean X = specMean X := by
  simp only [fitMean, specMean]
  rw [foldl_zipWith_add (fun r => r) X (List.replicate (X.headD []).length 0)
    (fun r hr => by rw [List.length_replicate]; exact hd r hr)]
  rw [List.length_replicate, List.map_map]
  apply List.map_congr_left
  intro j hj
  simp only [Function.comp, getD_replicate_zero, zero_add, colVals]

/-- The std loop of `_fitScaler`, fed with the mean it just computed,
computes the spec population standard deviation with the zero-floor. -/
lemma fitStd_eq_specStd (rsqrt : ℚ → ℚ) (X : Mat)
    (hd : ∀ r ∈ X, r.length = (X.headD []).length) :
    fitStd rsqrt X (fitMean X) = specStd rsqrt X := by
  have hmean : fitMean X = specMean X := fitMean_eq_specMean X hd
  have hmlen : (specMean X).length = (X.headD []).length := by
    simp [specMean]
  simp only [fitStd, hmean, specStd]
  rw [foldl_zipWith_add (fun row => List.zipWith (fun v mu => (v - mu) ^ 2) row (specMean X)) X
    (List.replicate (specMean X).length 0)
    (fun r hr => by
      rw [List.length_zipWith, List.length_replicate, hd r hr, hmlen, min_self])]
  rw [List.length_replicate, hmlen, List.map_map]
  apply List.map_congr_left
  intro j hj
  rw [List.mem_range] at hj
  simp only [Function.comp, getD_replicate_zero, zero_add]
  have hS : X.map (fun r => (List.zipWith (fun v mu => (v - mu) ^ 2) r (specMean X)).getD j 0) =
      (colVals X j).map (fun x => (x - (colVals X j).sum / (X.length : ℚ)) ^ 2) := by
    rw [colVals, List.map_map]
    apply List.map_congr_left
    intro r hr
    have hr' : j < r.length := by rw [hd r hr]; exact hj
    have hjm : j < (specMean X).length := by rw [hmlen]; exact hj
    have hz : j < (List.zipWith (fun v mu => (v - mu) ^ 2) r (specMean X)).length := by
      rw [List.length_zipWith]
      omega
    rw [getD_in_bounds _ _ _ hz, List.getElem_zipWith]
    have hmj : (specMean X)[j] = (colVals X j).sum / (X.length : ℚ) := by
      simp only [specMean, List.getElem_map, List.getElem_range]
    rw [hmj, Function.comp]
    rw [getD_in_bounds _ _ _ hr']
    rw [colVals]
  rw [hS]

/-! ### The regularization loop equals adding `alpha I` -/

lemma vec_ext {a b : Vec} (hl : a.length = b.length)
    (h : ∀ j, a.getD j 0 = b.getD j 0) : a = b := by
  apply List.ext_getElem hl
  intro n h1 h2
  have hn := h n
  rw [getD_in_bounds _ _ _ h1, getD_in_bounds _ _ _ h2] at hn
  exact hn

lemma mat_ext {a b : Mat} (hl : a.length = b.length)
    (hrow : ∀ i, (a.getD i []).length = (b.getD i []).length)
    (h : ∀ i j, (a.getD i []).getD j 0 = (b.getD i []).getD j 0) : a = b := by
  apply List.ext_getElem hl
  intro n h1 h2
  apply vec_ext
  · have hn := hrow n
    rw [getD_in_bounds _ _ _ h1, getD_in_bounds _ _ _ h2] at hn
    exact hn
  · intro j
    have hn := h n j
    rw [getD_in_bounds _ _ _ h1, getD_in_bounds _ _ _ h2] at hn
    exact hn

lemma diagAdd_fold_get (alpha : ℚ) :
    ∀ (L : List ℕ) (M : Mat), L.Nodup → (∀ r ∈ M, r.length = M.length) →
      (∀ i ∈ L, i < M.length) → ∀ i j,
      ((L.foldl (fun acc i =>
          acc.set i ((acc.getD i []).set i ((acc.getD i []).getD i 0 + alpha))) M).getD i
        []).getD j 0 =
        (M.getD i []).getD j 0 + (if i = j ∧ i ∈ L then alpha else 0) := by
  intro L
  induction L with
  | nil => intro M _ _ _ i j; simp
  | cons a L ih =>
    intro M hnd hsq hL i j
    rw [List.foldl_cons]
    have ha : a < M.length := hL a (List.mem_cons_self a L)
    have hrowa : (M.getD a []).length = M.length := getD_row_len hsq ha
    have hM1len : (M.set a ((M.getD a []).set a ((M.getD a []).getD a 0 + alpha))).length =
        M.length := List.length_set _ _ _
    have hM1sq : ∀ r ∈ M.set a ((M.getD a []).set a ((M.getD a []).getD a 0 + alpha)),
        r.length = (M.set a ((M.getD a []).set a ((M.getD a []).getD a 0 + alpha))).length := by
      rw [hM1len]
      exact rows_set a hsq (by rw [List.length_set]; exact hrowa)
    have hnd' := List.nodup_cons.mp hnd
    rw [ih _ hnd'.2 hM1sq
      (fun k hk => by rw [hM1len]; exact hL k (List.mem_cons_of_mem a hk)) i j]
    by_cases hia : i = a
    · subst hia
      rw [getD_set_eq _ _ _ _ ha]
      by_cases hij : i = j
      · subst hij
        rw [getD_set_eq _ _ _ _ (by rw [hrowa]; exact ha)]
        rw [if_neg (fun hc => hnd'.1 hc.2), if_pos ⟨rfl, List.mem_cons_self i L⟩]
        ring
      · rw [getD_set_ne _ _ _ hij]
        rw [if_neg (fun hc => hij hc.1), if_neg (fun hc => hij hc.1)]
    · rw [getD_set_ne _ _ _ (fun hc => hia hc.symm)]
      congr 1
      by_cases hij : i = j ∧ i ∈ L
      · rw [if_pos hij, if_pos ⟨hij.1, List.mem_cons_of_mem a hij.2⟩]
      · rw [if_neg hij, if_neg (fun hc => hij ⟨hc.1, by
          rcases List.mem_cons.mp hc.2 with h | h
          · exact absurd h hia
          · exact h⟩)]

/-- The in-place diagonal loop of `train` is exactly the algebraic
`M + alpha I` of the spec, for a square `M`. -/
lemma diagAdd_eq_matAdd (M : Mat) (alpha : ℚ)
    (hsq : ∀ r ∈ M, r.length = M.length) :
    diagAdd M alpha = matAdd M (smulMat alpha (identityMat M.length)) := by
  obtain ⟨hdl, hdr⟩ := diagAdd_shape alpha hsq
  have hsm_len : (smulMat alpha (identityMat M.length)).length = M.length := by
    simp [smulMat, identityMat]
  have hsm_rows : ∀ i, i < M.length →
      ((smulMat alpha (identityMat M.length)).getD i []).length = M.length := by
    intro i hi
    rw [getD_in_bounds _ _ _ (by rw [hsm_len]; exact hi)]
    simp [smulMat, identityMat, identRow]
  have hsm_row : ∀ i, i < M.length →
      (smulMat alpha (identityMat M.length)).getD i [] =
        (identRow M.length i).map (fun v => alpha * v) := by
    intro i hi
    rw [getD_in_bounds _ _ _ (by rw [hsm_len]; exact hi)]
    simp only [smulMat, identityMat, List.getElem_map, List.getElem_range]
  have hsm_get : ∀ i j, i < M.length →
      ((smulMat alpha (identityMat M.length)).getD i []).getD j 0 =
        (if i = j ∧ j < M.length then alpha * 1 else alpha * 0) := by
    intro i j hi
    rw [hsm_row i hi]
    by_cases hj : j < M.length
    · rw [getD_in_bounds _ _ _ (by simp [identRow]; exact hj)]
      simp only [List.getElem_map, identRow, List.getElem_range]
      by_cases hij : i = j
      · rw [if_pos hij, if_pos ⟨hij, hj⟩]
      · rw [if_neg hij, if_neg (fun hc => hij hc.1)]
    · rw [List.getD_eq_default _ _ (by simp [identRow]; omega)]
      rw [if_neg (fun hc => hj hc.2)]
      ring
  have hmadd_len : (matAdd M (smulMat alpha (identityMat M.length))).length = M.length := by
    simp only [matAdd]
    rw [List.length_zipWith, hsm_len, min_self]
  have hmadd_row : ∀ i, i < M.length →
      (matAdd M (smulMat alpha (identityMat M.length))).getD i [] =
        List.zipWith (fun u v => u + v) (M.getD i [])
          ((smulMat alpha (identityMat M.length)).getD i []) := by
    intro i hi
    rw [getD_in_bounds _ _ _ (by rw [hmadd_len]; exact hi)]
    simp only [matAdd]
    rw [List.getElem_zipWith]
    rw [getD_in_bounds _ _ _ hi, getD_in_bounds _ _ _ (by rw [hsm_len]; exact hi)]
  apply mat_ext
  · rw [hdl, hmadd_len]
  · intro i
    by_cases hi : i < M.length
    · have h1 : ((diagAdd M alpha).getD i []).length = M.length := by
        rw [getD_in_bounds _ _ _ (by rw [hdl]; exact hi)]
        exact hdr _ (List.getElem_mem _)
      have h2 : ((matAdd M (smulMat alpha (identityMat M.length))).getD i []).length =
          M.length := by
        rw [hmadd_row i hi, List.length_zipWith, getD_row_len hsq hi, hsm_rows i hi, min_self]
      rw [h1, h2]
    · rw [List.getD_eq_default _ _ (by rw [hdl]; omega),
        List.getD_eq_default _ _ (by rw [hmadd_len]; omega)]
  · intro i j
    have hfold' : ((diagAdd M alpha).getD i []).getD j 0 =
        (M.getD i []).getD j 0 + (if i = j ∧ i ∈ List.range M.length then alpha else 0) :=
      diagAdd_fold_get alpha (List.range M.length) M (List.nodup_range _)
        hsq (fun k hk => List.mem_range.mp hk) i j
    rw [hfold']
    by_cases hi : i < M.length
    · have hrow : (M.getD i []).length = M.length := getD_row_len hsq hi
      rw [hmadd_row i hi]
      by_cases hj : j < M.length
      · have hzj : j < (List.zipWith (fun u v => u + v) (M.getD i [])
            ((smulMat alpha (identityMat M.length)).getD i [])).length := by
          rw [List.length_zipWith, hrow, hsm_rows i hi, min_self]
          exact hj
        rw [getD_in_bounds _ _ _ hzj, List.getElem_zipWith]
        have hsm := hsm_get i j hi
        rw [getD_in_bounds _ _ _ (by rw [hsm_rows i hi]; exact hj)] at hsm
        rw [hsm]
        rw [getD_in_bounds (M.getD i []) j 0 (by rw [hrow]; exact hj)]
        by_cases hij : i = j
        · rw [if_pos ⟨hij, List.mem_range.mpr hi⟩, if_pos ⟨hij, hj⟩]
          ring
        · rw [if_neg (fun hc => hij hc.1), if_neg (fun hc => hij hc.1)]
          ring
      · rw [List.getD_eq_default _ _ (by rw [hrow]; omega)]
        rw [List.getD_eq_default _ _ (by
          rw [List.length_zipWith, hrow, hsm_rows i hi, min_self]
          omega)]
        rw [if_neg (fun hc : i = j ∧ i ∈ List.range M.length => hj (hc.1 ▸ hi))]
        ring
    · rw [List.getD_eq_default M [] (by omega)]
      rw [List.getD_eq_default (matAdd M (smulMat alpha (identityMat M.length))) []
        (by rw [hmadd_len]; omega)]
      rw [if_neg (fun hc => hi (List.mem_range.mp hc.2))]
      simp

/-- Shape of the Gram matrix for any scaler vectors. -/
lemma gram_square (mean std : Vec) (x : Vec) (Xt : Mat)
    (hd : ∀ r ∈ (x :: Xt), r.length = x.length) :
    (matMul (transpose ((transform mean std (x :: Xt)).map (fun row => row ++ [1])))
      ((transform mean std (x :: Xt)).map (fun row => row ++ [1]))).length = x.length + 1 ∧
    ∀ r ∈ matMul (transpose ((transform mean std (x :: Xt)).map (fun row => row ++ [1])))
      ((transform mean std (x :: Xt)).map (fun row => row ++ [1])), r.length = x.length + 1 := by
  have hhead : ((((transform mean std (x :: Xt)).map (fun row => row ++ [1])).headD [])).length =
      x.length + 1 := by
    simp [transform, transformRow]
  constructor
  · rw [matMul, List.length_map, transpose, List.length_map, List.length_range, hhead]
  · intro r hr
    rw [matMul, List.mem_map] at hr
    obtain ⟨row, _, hrow⟩ := hr
    rw [← hrow, List.length_map, List.length_range, hhead]

/-! ### Claim C1 -/

/-- C1: on `n >= 2` samples of equal feature length `d`, `train` fits the
per-dimension standardizer with the population standard deviation (divide by
`n`, zero replaced by 1), standardizes all feature vectors, appends a constant
1 column, forms `A = Xb^T Xb + alpha I` and `B = Xb^T Y`, and sets the weights
to the first `d` rows of `A^{-1} B`, the bias to its last row, and the trained
flag. -/
theorem train_implements_spec (rsqrt : ℚ → ℚ) (m : Model) (X Y : Mat)
    (h2 : 2 ≤ X.length) (hd : ∀ r ∈ X, r.length = (X.headD []).length) :
    ∃ Ainv,
      inverse (matAdd
        (matMul (transpose ((transform (specMean X) (specStd rsqrt X) X).map
            (fun row => row ++ [1])))
          ((transform (specMean X) (specStd rsqrt X) X).map (fun row => row ++ [1])))
        (smulMat m.alpha (identityMat ((X.headD []).length + 1)))) = some Ainv ∧
      train rsqrt m X Y =
        { alpha := m.alpha, mean := some (specMean X), std := some (specStd rsqrt X),
          weights := some ((matMul Ainv (matMul
            (transpose ((transform (specMean X) (specStd rsqrt X) X).map
              (fun row => row ++ [1]))) Y)).take (X.headD []).length),
          bias := some ((matMul Ainv (matMul
            (transpose ((transform (specMean X) (specStd rsqrt X) X).map
              (fun row => row ++ [1]))) Y)).getD (X.headD []).length []),
          trained := true } := by
  rcases X with _ | ⟨x, Xt⟩
  · simp at h2
  simp only [List.headD_cons]
  simp only [List.headD_cons] at hd
  have h2' : 2 ≤ Xt.length + 1 := by simpa using h2
  have hmean := fitMean_eq_specMean (x :: Xt) (by simpa using hd)
  have hstd := fitStd_eq_specStd rsqrt (x :: Xt) (by simpa using hd)
  obtain ⟨hglen, hgrows⟩ := gram_square (specMean (x :: Xt)) (specStd rsqrt (x :: Xt)) x Xt hd
  have hsq : ∀ r ∈ matMul
      (transpose ((transform (specMean (x :: Xt)) (specStd rsqrt (x :: Xt)) (x :: Xt)).map
        (fun row => row ++ [1])))
      ((transform (specMean (x :: Xt)) (specStd rsqrt (x :: Xt)) (x :: Xt)).map
        (fun row => row ++ [1])),
      r.length = (matMul
        (transpose ((transform (specMean (x :: Xt)) (specStd rsqrt (x :: Xt)) (x :: Xt)).map
          (fun row => row ++ [1])))
        ((transform (specMean (x :: Xt)) (specStd rsqrt (x :: Xt)) (x :: Xt)).map
          (fun row => row ++ [1]))).length := by
    rw [hglen]
    exact hgrows
  have hdiag := diagAdd_eq_matAdd _ m.alpha hsq
  rw [hglen] at hdiag
  obtain ⟨Ainv, hinvFit, _, _⟩ := inverse_some (train_gram_square rsqrt m.alpha x Xt hd)
  have hinvSpec := hinvFit
  rw [hstd, hmean] at hinvSpec
  have htr := train_eq_of_inverse rsqrt m (x :: Xt) Y Ainv
    (by simpa using (by omega : ¬Xt.length + 1 < 2)) hinvFit
  rw [hstd, hmean] at htr
  refine ⟨Ainv, ?_, ?_⟩
  · rw [← hdiag]
    exact hinvSpec
  · simpa using htr

theorem train_implements_spec_witness :
    ∃ Ainv,
      inverse (matAdd
        (matMul (transpose ((transform (specMean [[0], [2]]) (specStd ratSqrt [[0], [2]])
            [[0], [2]]).map (fun row => row ++ [1])))
          ((transform (specMean [[0], [2]]) (specStd ratSqrt [[0], [2]]) [[0], [2]]).map
            (fun row => row ++ [1])))
        (smulMat (mkModel 1).alpha
          (identityMat (([[0], [2]].headD []).length + 1)))) = some Ainv ∧
      train ratSqrt (mkModel 1) [[0], [2]] [[1, 2], [3, 4]] =
        { alpha := (mkModel 1).alpha,
          mean := some (specMean [[0], [2]]),
          std := some (specStd ratSqrt [[0], [2]]),
          weights := some ((matMul Ainv (matMul
            (transpose ((transform (specMean [[0], [2]]) (specStd ratSqrt [[0], [2]])
              [[0], [2]]).map (fun row => row ++ [1]))) [[1, 2], [3, 4]])).take
            ([[0], [2]].headD []).length),
          bias := some ((matMul Ainv (matMul
            (transpose ((transform (specMean [[0], [2]]) (specStd ratSqrt [[0], [2]])
              [[0], [2]]).map (fun row => row ++ [1]))) [[1, 2], [3, 4]])).getD
            ([[0], [2]].headD []).length []),
          trained := true } :=
  train_implements_spec ratSqrt (mkModel 1) [[0], [2]] [[1, 2], [3, 4]]
    (by decide) (by decide)

/-! ### Claim C3 -/

/-- C3: after the target loop, fewer than 20 accumulated samples make the
protocol report failure without invoking training (the model is untouched);
otherwise it invokes `train` on the full accumulated sample set, reports
success, and training indeed completes (the trained flag ends up set). -/
theorem calibration_completion (rsqrt : ℚ → ℚ) (model : Model)
    (pts : List ((ℚ × ℚ) × List Frame))
    (hnc : ∀ p ∈ pts, ∀ f ∈ p.2, f.cancel = false)
    (hlen : ∀ v ∈ (calibLoop pts).features,
      v.length = ((calibLoop pts).features.headD []).length) :
    ((calibLoop pts).features.length < 20 →
      runCalibration rsqrt model pts = (model, false)) ∧
      (20 ≤ (calibLoop pts).features.length →
        runCalibration rsqrt model pts =
          (train rsqrt model (calibLoop pts).features (calibLoop pts).targets, true) ∧
        (train rsqrt model (calibLoop pts).features (calibLoop pts).targets).trained =
          true) := by
  constructor
  · intro h
    simp only [runCalibration]
    rw [if_neg (by omega)]
  · intro h
    refine ⟨?_, train_trained_aux rsqrt model _ _ (by omega) hlen⟩
    simp only [runCalibration]
    rw [if_pos h]

/-- A capture iteration that yields an accepted sample (features present, no
blink). -/
def goodFrame : Frame := ⟨false, some (some [0], false)⟩

/-- A capture iteration at which `cancel()` has fired. -/
def cancelFrame : Frame := ⟨true, none⟩

theorem calibration_completion_witness :
    runCalibration ratSqrt (mkModel 1) [((5, 7), [goodFrame])] = (mkModel 1, false) :=
  (calibration_completion ratSqrt (mkModel 1) [((5, 7), [goodFrame])]
    (by decide) (by decide)).1 (by decide)

/-! ### Claim C2 -/

/-- A calibration run in which 20 samples are accepted at the first target,
`cancel()` then fires mid-capture, and a second target (which would have
produced another sample) remains. -/
def cancelRunPts : List ((ℚ × ℚ) × List Frame) :=
  [((5, 7), List.replicate 20 goodFrame ++ [cancelFrame]), ((9, 11), [goodFrame])]

/-- C2 (divergence witness): cancelling mid-capture does not discard the
samples collected so far and does not prevent training.  On `cancelRunPts`
the run is cancelled (the loop state ends with `isRunning = false`, the second
target is never captured), yet `_runCalibration` falls through to its
completion block: it trains on the 20 retained samples, replaces the
previously untrained model with a trained one, and reports success through the
completion callback. -/
theorem calibration_cancel_still_trains :
    (∃ p ∈ cancelRunPts, ∃ f ∈ p.2, f.cancel = true) ∧
      (calibLoop cancelRunPts).isRunning = false ∧
      (calibLoop cancelRunPts).features.length = 20 ∧
      (runCalibration ratSqrt (mkModel 1) cancelRunPts).2 = true ∧
      (runCalibration ratSqrt (mkModel 1) cancelRunPts).1.trained = true ∧
      (mkModel 1).trained = false := by
  refine ⟨by decide, by decide, by decide, ?_, ?_, rfl⟩
  · simp only [runCalibration]
    rw [if_pos (by decide : 20 ≤ (calibLoop cancelRunPts).features.length)]
  · simp only [runCalibration]
    rw [if_pos (by decide : 20 ≤ (calibLoop cancelRunPts).features.length)]
    exact train_trained_aux ratSqrt (mkModel 1) _ _ (by decide) (by decide)

end Foveated
